import Mathlib

/-!
Verification of the fractal-seq sequencer core (`src/audio/FractalTree.ts`,
`src/audio/SequencerEngine.ts`, `src/model/types.ts`).

JavaScript `number`s are embedded as `ℚ` (all values the program manipulates
are produced by integer literals, `+`, `-`, `*`, `/`, `Math.floor`,
`Math.round` and `Math.random`, so rationals model them exactly).
`Math.random()` draws are passed in as explicit oracle arguments
(`rand : Nat → ℚ`, one entry per draw site), the standard shallow embedding
of an impure RNG.  JS `x % y` on integers is truncated remainder
(`Int.tmod`), `Math.floor` is `Int.floor`, `Math.trunc` (used implicitly by
`%` on rationals) is floor/ceil by sign.
-/

namespace FractalSeq

/-- Scale identifiers from `model/types.ts`. -/
inductive ScaleName where
  | chromatic
  | major
  | minor
  | majorPentatonic
  | minorPentatonic
  | harmonicMinor
  | wholeTone
  | unquantized
deriving DecidableEq, Fintype

/-- Gate length modes from `model/types.ts`. -/
inductive GateLengthKind where
  | trigger
  | p10
  | p25
  | p50
  | p75
  | p90
  | tied
deriving DecidableEq

/-- Per-node step traversal orders (`model/types.ts`). -/
inductive PlaybackOrder where
  | forward
  | backward
  | pendulum
  | random
deriving DecidableEq

/-- Branch traversal orders (`model/types.ts`); note `reverse`, not `backward`. -/
inductive BranchPlaybackOrder where
  | forward
  | reverse
  | pendulum
  | random
deriving DecidableEq

/-- Transformation kinds (`model/types.ts`). -/
inductive ModificationKind where
  | transpose
  | invert
  | reverse
  | mutate
deriving DecidableEq

/-- One step slot (`model/types.ts`).  `depth`/`originalIndex` are the
optional annotations attached by the flattener. -/
structure Step where
  pitch : ℚ
  gateOn : Bool
  ratchets : Nat
  slew : ℚ
  gateLength : GateLengthKind
  depth : Option Nat := none
  originalIndex : Option Nat := none
deriving DecidableEq

/-- A sequence: stored steps plus the active-length and policies
(`model/types.ts`). -/
structure Sequence where
  steps : List Step
  length : Nat
  scale : ScaleName
  playbackOrder : PlaybackOrder
deriving DecidableEq

/-- Per-depth branch transformation recipe (`model/types.ts`). -/
structure BranchConfig where
  left : ModificationKind
  right : ModificationKind
  leftParam : ℚ
  rightParam : ℚ
deriving DecidableEq

/-- Fractal parameters of one pattern (`model/types.ts`). -/
structure Pattern where
  trunk : Sequence
  branchesCount : Nat
  pathValue : ℚ
  mutationAmount : ℚ
  rootOffsetSemitones : ℚ
  divMult : ℚ
  branchConfig : List BranchConfig
  branchPlaybackOrder : BranchPlaybackOrder

/-- One node of the generated binary tree (`model/types.ts`).  `left`/`right`
are `Option`s exactly as in the source. -/
inductive TreeNode where
  | mk (sequence : Sequence) (depth : Nat)
       (modificationFromParent : Option ModificationKind)
       (left : Option TreeNode) (right : Option TreeNode)

def TreeNode.sequence : TreeNode → Sequence
  | .mk s _ _ _ _ => s

def TreeNode.depth : TreeNode → Nat
  | .mk _ d _ _ _ => d

def TreeNode.modificationFromParent : TreeNode → Option ModificationKind
  | .mk _ _ m _ _ => m

def TreeNode.left : TreeNode → Option TreeNode
  | .mk _ _ _ l _ => l

def TreeNode.right : TreeNode → Option TreeNode
  | .mk _ _ _ _ r => r

/-- The generated tree bundle (`model/types.ts`). -/
structure GeneratedTree where
  root : TreeNode
  maxDepth : Nat

/-- A channel (`model/types.ts`): pattern bank, active pattern index, the
generated tree and the cached flattened active sequence. -/
structure Channel where
  id : Nat
  currentPatternIndex : Nat
  patterns : List Pattern
  generatedTree : Option GeneratedTree
  activeSequence : Option Sequence := none

/-- Placeholder step, sequence and pattern used as the `getD` default for the
out-of-bounds array reads that JavaScript would answer with `undefined`; all
claims are settled on channels whose pattern index is valid, where these
defaults are never produced. -/
def defaultStep : Step :=
  { pitch := 0, gateOn := false, ratchets := 1, slew := 0, gateLength := .p50 }

def defaultSequence : Sequence :=
  { steps := [], length := 0, scale := .chromatic, playbackOrder := .forward }

def defaultPattern : Pattern :=
  { trunk := defaultSequence, branchesCount := 0, pathValue := 0,
    mutationAmount := 0, rootOffsetSemitones := 0, divMult := 1,
    branchConfig := [], branchPlaybackOrder := .forward }

/-! ### Scale quantization (`FractalTree.ts` lines 14-61) -/

/-- The fixed interval tables (`SCALES` in `FractalTree.ts`). -/
def SCALES : ScaleName → List Int
  | .chromatic => [0, 1, 2, 3, 4, 5, 6, 7, 8, 9, 10, 11]
  | .major => [0, 2, 4, 5, 7, 9, 11]
  | .minor => [0, 2, 3, 5, 7, 8, 10]
  | .majorPentatonic => [0, 2, 4, 7, 9]
  | .minorPentatonic => [0, 3, 5, 7, 10]
  | .harmonicMinor => [0, 2, 3, 5, 7, 8, 11]
  | .wholeTone => [0, 2, 4, 6, 8, 10]
  | .unquantized => []

/-- JavaScript `Math.trunc`: floor for nonnegative, ceil (`-⌊-q⌋`) for
negative arguments. -/
def jsTrunc (q : ℚ) : Int := if 0 ≤ q then ⌊q⌋ else -⌊-q⌋

/-- JavaScript `%` on numbers: `a - b * Math.trunc(a / b)`. -/
def jsRem (a b : ℚ) : ℚ := a - b * (jsTrunc (a / b) : ℚ)

/-- The nearest-interval scan of `quantizePitch` (lines 38-47): running
`minDiff` starts at `Infinity`, modelled as `none`; the update is a strict
`<` so ties keep the earlier interval. -/
def quantLoop (normalizedNote : Int) : List Int → Option Nat × Int → Option Nat × Int
  | [], acc => acc
  | interval :: rest, (minDiff, nearest) =>
      let diff := (normalizedNote - interval).natAbs
      let better := match minDiff with
        | none => true
        | some m => decide (diff < m)
      if better then quantLoop normalizedNote rest (some diff, interval)
      else quantLoop normalizedNote rest (minDiff, nearest)

/-- Lines 37-60 of `quantizePitch`: nearest-interval scan plus the two
octave-seam corrections, abstracted over the already computed `octave` and
`normalizedNote`. -/
def quantizeCore (intervals : List Int) (octave normalizedNote : Int) : Int :=
  let first := intervals.headD 0
  let res := quantLoop normalizedNote intervals (none, first)
  let minDiff : Nat := res.1.getD 0
  let nearest : Int := res.2
  let diffUpper := ((normalizedNote - 12) - first).natAbs
  if diffUpper < minDiff then (octave + 1) * 12 + first
  else
    let last := intervals.getLastD 0
    let diffLower := ((normalizedNote + 12) - last).natAbs
    if diffLower < minDiff then (octave - 1) * 12 + last
    else octave * 12 + nearest

/-- `quantizePitch` (`FractalTree.ts` lines 25-61).  `note` is
`Math.round(pitch % 12)` and `normalizedNote` is `((note % 12) + 12) % 12`
with JS truncated remainder. -/
def quantizePitch (pitchSemitones : ℚ) (scale : ScaleName) : ℚ :=
  if scale = ScaleName.unquantized then pitchSemitones
  else
    let intervals := SCALES scale
    if intervals.isEmpty then pitchSemitones
    else
      let octave : Int := ⌊pitchSemitones / 12⌋
      let note : Int := round (jsRem pitchSemitones 12)
      let normalizedNote : Int := ((note.tmod 12) + 12).tmod 12
      ((quantizeCore intervals octave normalizedNote : Int) : ℚ)

/-! ### Sequence transformations (`FractalTree.ts` lines 65-126) -/

/-- `cloneSequence` copies the sequence and each step element-wise; in a pure
model the copy is the value itself. -/
def cloneSequence (seq : Sequence) : Sequence := seq

/-- `map((s, idx) => ...)`: map with the element index, as plain structural
recursion so that it evaluates by `rfl`. -/
def mapIdxGo (f : Nat → α → β) : Nat → List α → List β
  | _, [] => []
  | i, a :: l => f i a :: mapIdxGo f (i + 1) l

def mapWithIndex (f : Nat → α → β) (l : List α) : List β := mapIdxGo f 0 l

/-- `transposeSequence`: adds `semitones` to the pitch of every stored step
(the `forEach` runs over the whole `steps` array). -/
def transposeSequence (seq : Sequence) (semitones : ℚ) : Sequence :=
  let newSeq := cloneSequence seq
  { newSeq with steps := newSeq.steps.map fun step =>
      { step with pitch := step.pitch + semitones } }

/-- The single `forEach` of `invertSequence` that accumulates `minPitch` and
`maxPitch`; the `Infinity`/`-Infinity` seeds are modelled as `none`, and the
updates use the source's strict comparisons. -/
def minMaxPitch : List Step → Option ℚ × Option ℚ → Option ℚ × Option ℚ
  | [], acc => acc
  | s :: rest, (mn, mx) =>
      let mn' := match mn with
        | none => some s.pitch
        | some m => if s.pitch < m then some s.pitch else some m
      let mx' := match mx with
        | none => some s.pitch
        | some m => if m < s.pitch then some s.pitch else some m
      minMaxPitch rest (mn', mx')

/-- `invertSequence`: min/max of the pitch over all stored steps, then each
stored step's pitch is remapped to `maxPitch - (pitch - minPitch)`.  The
unreachable fallback arm returns the clone (the scan of a nonempty list
always yields `some`/`some`). -/
def invertSequence (seq : Sequence) : Sequence :=
  let newSeq := cloneSequence seq
  if newSeq.steps.isEmpty then newSeq
  else
    match minMaxPitch newSeq.steps (none, none) with
    | (some minPitch, some maxPitch) =>
        { newSeq with steps := newSeq.steps.map fun s =>
            { s with pitch := maxPitch - (s.pitch - minPitch) } }
    | _ => newSeq

/-- `reverseSequence`: reverses the active-length slice and writes it back
over positions `0..length`, leaving the tail untouched.  The write-back loop
is modelled as `reversed ++ drop length`, which agrees with the source
whenever `length ≤ steps.length` (the `Sequence` invariant). -/
def reverseSequence (seq : Sequence) : Sequence :=
  let newSeq := cloneSequence seq
  let activeSteps := (newSeq.steps.take newSeq.length).reverse
  { newSeq with steps := activeSteps ++ newSeq.steps.drop newSeq.length }

/-- `mutateSequence`: on `range ≠ 0`, every stored step with `gateOn` gets
`Math.floor(random * (range * 2 + 1)) - range` added to its pitch; the draw
for the step at position `i` is `rand i`. -/
def mutateSequence (rand : Nat → ℚ) (seq : Sequence) (range : ℚ) : Sequence :=
  let newSeq := cloneSequence seq
  if range = 0 then newSeq
  else
    { newSeq with steps := mapWithIndex (fun i step =>
        if step.gateOn then
          { step with pitch := step.pitch + ((⌊rand i * (range * 2 + 1)⌋ : ℚ) - range) }
        else step) newSeq.steps }

/-! ### Tree generation (`FractalTree.ts` lines 130-196) -/

/-- The `if/else` chains applying the configured modification kind (lines
167-176); `mutate` substitutes `0.3` when its parameter is falsy (`0`). -/
def applyMod (kind : ModificationKind) (param : ℚ) (rand : Nat → ℚ)
    (seq : Sequence) : Sequence :=
  match kind with
  | .transpose => transposeSequence seq param
  | .invert => invertSequence seq
  | .reverse => reverseSequence seq
  | .mutate => mutateSequence rand seq (if param = 0 then 3/10 else param)

/-- The default branch recipe substituted for a missing `branchConfig` entry
(line 156). -/
def defaultBranchConfig : BranchConfig :=
  { left := .transpose, right := .transpose, leftParam := 7, rightParam := -5 }

/-- The recursive `buildChildren` of `generateTreeForChannel`, with a fuel
argument (the recursion depth is bounded by `maxDepth`, and the guard
`node.depth ≥ maxDepth` mirrors the source's early return).  `randT`
supplies the `mutate` draws, addressed by the node's left/right path. -/
def buildChildren (pattern : Pattern) (randT : List Bool → Nat → ℚ)
    (maxDepth : Nat) : Nat → List Bool → TreeNode → TreeNode
  | 0, _, node => node
  | fuel + 1, path, node =>
      if maxDepth ≤ node.depth then node
      else
        let d := node.depth + 1
        let config := pattern.branchConfig.getD (d - 1) defaultBranchConfig
        let leftSeq := applyMod config.left config.leftParam (randT (path ++ [false])) node.sequence
        let rightSeq := applyMod config.right config.rightParam (randT (path ++ [true])) node.sequence
        let leftChild := buildChildren pattern randT maxDepth fuel (path ++ [false])
          (.mk leftSeq d (some config.left) none none)
        let rightChild := buildChildren pattern randT maxDepth fuel (path ++ [true])
          (.mk rightSeq d (some config.right) none none)
        .mk node.sequence node.depth node.modificationFromParent
          (some leftChild) (some rightChild)

/-- `generateTreeForChannel` (`FractalTree.ts` lines 130-196). -/
def generateTreeForChannel (randT : List Bool → Nat → ℚ) (channel : Channel) :
    GeneratedTree :=
  let pattern := channel.patterns.getD channel.currentPatternIndex defaultPattern
  let trunk := pattern.trunk
  let maxDepth := pattern.branchesCount
  let root : TreeNode := .mk trunk 0 none none none
  if maxDepth = 0 then { root := root, maxDepth := maxDepth }
  else { root := buildChildren pattern randT maxDepth maxDepth [] root,
         maxDepth := maxDepth }

/-! ### Playback sequence construction (`FractalTree.ts` lines 200-300) -/

/-- `getEffectivePathValue` (line 200). -/
def getEffectivePathValue (pattern : Pattern) : ℚ := pattern.pathValue

/-- Binary digits of a natural number, most significant first, by repeated
division (structural fuel so that it evaluates by `rfl`); `natBits 0 = [false]`
matches `Number.toString(2) = "0"`. -/
def natBitsGo (f : Nat) (n : Nat) (acc : List Bool) : List Bool :=
  match f with
  | 0 => acc
  | f + 1 => if n = 0 then acc else natBitsGo f (n / 2) (decide (n % 2 = 1) :: acc)

def natBits (n : Nat) : List Bool :=
  if n = 0 then [false] else natBitsGo n n []

/-- `pathIndex.toString(2).padStart(branchesCount, '0')` restricted to the
first `branchesCount` characters the walk actually reads (`true` = `'1'` =
right child).  The embedding uses `pathIndex.toNat`; per the data model
`pathValue ∈ [0, 1]`, so `pathIndex` is never negative. -/
def pathBitsList (pathIndex : Nat) (branchesCount : Nat) : List Bool :=
  let s := natBits pathIndex
  (List.replicate (branchesCount - s.length) false ++ s).take branchesCount

/-- The descent loop of `buildPlaybackSequence` (lines 225-230): follow one
bit per level, stop early if a child is missing, collect the visited nodes
(root excluded; the caller conses it on). -/
def walkPath : TreeNode → List Bool → List TreeNode
  | _, [] => []
  | node, b :: rest =>
      match (if b then node.right else node.left) with
      | none => []
      | some child => child :: walkPath child rest

/-- One Fisher-Yates swap: exchange positions `i` and `j` when both are in
bounds (in the source they always are: `j ≤ i < size`). -/
def listSwap (l : List α) (i j : Nat) : List α :=
  match l[i]?, l[j]? with
  | some a, some b => (l.set i b).set j a
  | _, _ => l

/-- The Fisher-Yates loop `for (i = len-1; i > 0; i--)`, one `rand` entry per
loop index. -/
def shuffleGo (rand : Nat → ℚ) : Nat → List α → List α
  | 0, l => l
  | i + 1, l =>
      shuffleGo rand i (listSwap l (i + 1) (⌊rand (i + 1) * ((i + 1 : Nat) + 1 : ℚ)⌋).toNat)

def shuffleList (rand : Nat → ℚ) (l : List α) : List α :=
  shuffleGo rand (l.length - 1) l

/-- Per-node step flattening (lines 261-292): take the active-length slice,
tag `originalIndex`, reorder per the trunk's `playbackOrder`, tag `depth`. -/
def nodeSteps (randS : Nat → ℚ) (seqOrder : PlaybackOrder) (node : TreeNode) :
    List Step :=
  let steps := mapWithIndex (fun idx s => { s with originalIndex := some idx })
    (node.sequence.steps.take node.sequence.length)
  let steps := match seqOrder with
    | .backward => steps.reverse
    | .pendulum => steps ++ ((steps.dropLast).drop 1).reverse
    | .random => shuffleList randS steps
    | .forward => steps
  steps.map fun s => { s with depth := some node.depth }

/-- The `orderedNodes.forEach` collection loop; `k` numbers the nodes so each
node's `random` step shuffle gets its own draw stream. -/
def collectSteps (randS : Nat → Nat → ℚ) (seqOrder : PlaybackOrder) :
    Nat → List TreeNode → List Step
  | _, [] => []
  | k, node :: rest =>
      nodeSteps (randS k) seqOrder node ++ collectSteps randS seqOrder (k + 1) rest

/-- The branch reordering of the visited path nodes (lines 232-254):
identity, full reversal, interior-replay pendulum, or Fisher-Yates shuffle. -/
def reorderNodes (randB : Nat → ℚ) (branchOrder : BranchPlaybackOrder)
    (pathNodes : List TreeNode) : List TreeNode :=
  match branchOrder with
  | .forward => pathNodes
  | .reverse => pathNodes.reverse
  | .pendulum => pathNodes ++ ((pathNodes.dropLast).drop 1).reverse
  | .random => shuffleList randB pathNodes

/-- `buildPlaybackSequence` (`FractalTree.ts` lines 204-300).  `randB` feeds
the branch-order shuffle, `randS k` the step shuffle of the `k`-th ordered
node. -/
def buildPlaybackSequence (randB : Nat → ℚ) (randS : Nat → Nat → ℚ)
    (channel : Channel) : Sequence :=
  let pattern := channel.patterns.getD channel.currentPatternIndex defaultPattern
  match channel.generatedTree with
  | none => pattern.trunk
  | some tree =>
      let branchesCount := pattern.branchesCount
      let maxPaths : ℚ := 2 ^ branchesCount
      let effectivePathValue := getEffectivePathValue pattern
      let pathIndex : Int := ⌊effectivePathValue * (maxPaths - 1/10000)⌋
      let pathBits := pathBitsList pathIndex.toNat branchesCount
      let pathNodes := tree.root :: walkPath tree.root pathBits
      let orderedNodes := reorderNodes randB pattern.branchPlaybackOrder pathNodes
      let collectedSteps := collectSteps randS pattern.trunk.playbackOrder 0 orderedNodes
      { steps := collectedSteps, length := collectedSteps.length,
        scale := pattern.trunk.scale, playbackOrder := .forward }

/-! ### Step scheduler (`SequencerEngine.ts`) -/

/-- The per-channel persistent tick state (`SequencerEngine.ts` lines 12-17,
initialized at lines 71-76). -/
structure ChannelState where
  currentBaseStep : Nat
  currentRatchetCount : Nat
  nextNoteTime : ℚ
  lastTriggeredStepIndex : Int
deriving DecidableEq

/-- A scheduled note: what `processChannel` hands to the synth/MIDI sink. -/
structure TriggerEvent where
  pitch : ℚ
  duration : ℚ
  scheduleTime : ℚ
deriving DecidableEq

/-- `getStepIndexAtTick` (`SequencerEngine.ts` lines 342-366); `rand` is the
`Math.random()` draw used only by the `random` arm. -/
def getStepIndexAtTick (seq : Sequence) (baseStepIndex : Nat) (rand : ℚ) : Nat :=
  let len := seq.length
  if len = 0 then 0
  else
    match seq.playbackOrder with
    | .forward => baseStepIndex % len
    | .backward => (len - 1) - (baseStepIndex % len)
    | .pendulum =>
        if len ≤ 1 then 0
        else
          let cycle := 2 * len - 2
          let pos := baseStepIndex % cycle
          if pos < len then pos else cycle - pos
    | .random => (⌊rand * (len : ℚ)⌋).toNat

/-- The `percentages[...] || 0.5` table for the partial gate lengths (lines
311-315); `trigger` and `tied` never reach it. -/
def gateLengthPercent : GateLengthKind → ℚ
  | .p10 => 1/10
  | .p25 => 1/4
  | .p50 => 1/2
  | .p75 => 3/4
  | .p90 => 9/10
  | _ => 1/2

/-- The gate-duration computation (lines 305-316). -/
def gateDuration (kind : GateLengthKind) (ratchetDuration : ℚ) : ℚ :=
  if kind = .tied then ratchetDuration
  else if kind = .trigger then 6/1000
  else ratchetDuration * gateLengthPercent kind

/-- `processChannel` (`SequencerEngine.ts` lines 230-340) as a state
transition: takes the channel, the tick `time`, the global
`ratchetsEnabled` flag, the transport's quarter-note duration
`quarterTime` (`Tone.Transport.toSeconds("4n")`), the tick state, and the
random oracles; returns the new tick state plus the scheduled note, if any.
The synth/MIDI sink split does not change the event content and is out of
scope. -/
def processChannel (channel : Channel) (time : ℚ) (ratchetsEnabled : Bool)
    (quarterTime : ℚ) (st : ChannelState) (rand : ℚ)
    (randB : Nat → ℚ) (randS : Nat → Nat → ℚ) :
    ChannelState × Option TriggerEvent :=
  let pattern := channel.patterns.getD channel.currentPatternIndex defaultPattern
  let sequence := channel.activeSequence.getD (buildPlaybackSequence randB randS channel)
  if sequence.length = 0 then (st, none)
  else if time + 1/10 < st.nextNoteTime then (st, none)
  else
    let st := if st.nextNoteTime = 0 then { st with nextNoteTime := time } else st
    let stepIndex := getStepIndexAtTick sequence st.currentBaseStep rand
    match sequence.steps[stepIndex]? with
    | none => ({ st with currentBaseStep := 0 }, none)
    | some step =>
        let sixteenthTime := quarterTime / 4
        let stepDuration := sixteenthTime / pattern.divMult
        let ratchets : Nat := if ratchetsEnabled then step.ratchets else 1
        let ratchetDuration := stepDuration / (ratchets : ℚ)
        let scheduleTime := st.nextNoteTime
        let (st, ev) :=
          if step.gateOn then
            let pitch := quantizePitch step.pitch sequence.scale
              + pattern.rootOffsetSemitones + 60
            let duration := gateDuration step.gateLength ratchetDuration
            ({ st with lastTriggeredStepIndex := (stepIndex : Int) },
              some { pitch := pitch, duration := duration, scheduleTime := scheduleTime })
          else (st, none)
        let st := { st with
          currentRatchetCount := st.currentRatchetCount + 1,
          nextNoteTime := st.nextNoteTime + ratchetDuration }
        let st := if ratchets ≤ st.currentRatchetCount then
            { st with currentRatchetCount := 0,
                      currentBaseStep := st.currentBaseStep + 1 }
          else st
        (st, ev)

/-! ### Quantizer lemmas (claims C3, C4) -/

theorem tmod_nonneg_eq (a : Int) (h : 0 ≤ a) : a.tmod 12 = a % 12 :=
  Int.tmod_eq_emod h (by norm_num)

theorem tmod_neg_nonneg (j : Int) (h : 0 ≤ j) : (-j).tmod 12 = -(j % 12) := by
  obtain ⟨n, rfl⟩ := Int.eq_ofNat_of_zero_le h
  cases n with
  | zero => simp
  | succ m =>
      show (Int.negSucc m).tmod 12 = _
      show -(Int.ofNat ((m + 1) % 12)) = _
      rw [show ((m + 1 : Nat) : Int) % 12 = (Int.ofNat ((m + 1) % 12)) from
        (Int.ofNat_emod (m + 1) 12).symm]

theorem floor_intCast_div_12 (p : Int) : ⌊(p : ℚ) / 12⌋ = p / 12 := by
  exact_mod_cast Rat.floor_intCast_div_natCast p 12

theorem jsRem_int (p : Int) :
    jsRem (p : ℚ) 12 = ((if 0 ≤ p then p % 12 else -((-p) % 12) : Int) : ℚ) := by
  rcases le_or_lt 0 p with h | h
  · have hq : (0 : ℚ) ≤ (p : ℚ) / 12 := by positivity
    rw [jsRem, jsTrunc, if_pos hq, floor_intCast_div_12, if_pos h]
    have : p % 12 = p - 12 * (p / 12) := by omega
    rw [this]
    push_cast
    ring
  · have hq : (p : ℚ) / 12 < 0 := by
      apply div_neg_of_neg_of_pos _ (by norm_num)
      exact_mod_cast h
    rw [jsRem, jsTrunc, if_neg (not_le.mpr hq), if_neg (not_le.mpr h)]
    have hneg : -((p : ℚ) / 12) = ((-p : Int) : ℚ) / 12 := by push_cast; ring
    rw [hneg, floor_intCast_div_12]
    have : -((-p) % 12) = p + 12 * ((-p) / 12) := by omega
    rw [this]
    push_cast
    ring

theorem note_int (p : Int) :
    round (jsRem (p : ℚ) 12) = (if 0 ≤ p then p % 12 else -((-p) % 12)) := by
  rw [jsRem_int]
  exact round_intCast _

theorem normalized_int (p : Int) :
    (((if 0 ≤ p then p % 12 else -((-p) % 12)).tmod 12) + 12).tmod 12 = p % 12 := by
  split_ifs with h
  · have h0 : 0 ≤ p % 12 := Int.emod_nonneg p (by norm_num)
    have h1 : p % 12 < 12 := Int.emod_lt_of_pos p (by norm_num)
    rw [tmod_nonneg_eq _ h0]
    have h2 : 0 ≤ p % 12 % 12 + 12 := by omega
    rw [tmod_nonneg_eq _ h2]
    omega
  · have h0 : 0 ≤ (-p) % 12 := Int.emod_nonneg (-p) (by norm_num)
    have h1 : (-p) % 12 < 12 := Int.emod_lt_of_pos (-p) (by norm_num)
    rw [tmod_neg_nonneg _ h0]
    have h2 : 0 ≤ -((-p) % 12 % 12) + 12 := by omega
    rw [tmod_nonneg_eq _ h2]
    omega

theorem SCALES_ne_empty : ∀ s : ScaleName, s ≠ ScaleName.unquantized →
    (SCALES s).isEmpty = false := by decide

/-- Pull `quantizePitch` at an integer pitch down to the integer core. -/
theorem quantizePitch_int (p : Int) (s : ScaleName) (hs : s ≠ ScaleName.unquantized) :
    quantizePitch (p : ℚ) s = ((quantizeCore (SCALES s) (p / 12) (p % 12) : Int) : ℚ) := by
  rw [quantizePitch, if_neg hs]
  simp only [SCALES_ne_empty s hs, Bool.false_eq_true, if_false]
  rw [floor_intCast_div_12, note_int, normalized_int]

theorem quantizeCore_shift (ivs : List Int) (o n : Int) :
    quantizeCore ivs o n = 12 * o + quantizeCore ivs 0 n := by
  unfold quantizeCore
  dsimp only
  split_ifs <;> ring

theorem quantizeCore_fixed : ∀ s : ScaleName, s ≠ ScaleName.unquantized →
    ∀ n : Fin 12,
      quantizeCore (SCALES s) ((quantizeCore (SCALES s) 0 ((n : Nat) : Int)) / 12)
        ((quantizeCore (SCALES s) 0 ((n : Nat) : Int)) % 12)
      = quantizeCore (SCALES s) 0 ((n : Nat) : Int) := by decide

/-- Claim C3: quantization commutes with octave shifts,
`quantize(p + 12, s) = quantize(p, s) + 12` for every scale and integer pitch. -/
theorem quantizePitch_octave_invariance (p : Int) (s : ScaleName) :
    quantizePitch ((p : ℚ) + 12) s = quantizePitch (p : ℚ) s + 12 := by
  by_cases hs : s = ScaleName.unquantized
  · simp [quantizePitch, hs]
  · have hcast : ((p : ℚ) + 12) = ((p + 12 : Int) : ℚ) := by push_cast; ring
    rw [hcast, quantizePitch_int _ _ hs, quantizePitch_int _ _ hs]
    have h1 : (p + 12) / 12 = p / 12 + 1 := by omega
    have h2 : (p + 12) % 12 = p % 12 := by omega
    rw [h1, h2, quantizeCore_shift (SCALES s) (p / 12 + 1),
      quantizeCore_shift (SCALES s) (p / 12)]
    push_cast
    ring

/-- Claim C4: quantization is idempotent, `quantize(quantize(p, s), s) =
quantize(p, s)` for every scale and integer pitch. -/
theorem quantizePitch_idempotent (p : Int) (s : ScaleName) :
    quantizePitch (quantizePitch (p : ℚ) s) s = quantizePitch (p : ℚ) s := by
  by_cases hs : s = ScaleName.unquantized
  · simp [quantizePitch, hs]
  · rw [quantizePitch_int p s hs]
    set q : Int := quantizeCore (SCALES s) (p / 12) (p % 12) with hq
    rw [quantizePitch_int q s hs]
    have hw : q = 12 * (p / 12) + quantizeCore (SCALES s) 0 (p % 12) :=
      quantizeCore_shift _ _ _
    set w : Int := quantizeCore (SCALES s) 0 (p % 12) with hwdef
    have hn0 : 0 ≤ p % 12 := Int.emod_nonneg p (by norm_num)
    have hn1 : p % 12 < 12 := Int.emod_lt_of_pos p (by norm_num)
    have hfix := quantizeCore_fixed s hs ⟨(p % 12).toNat, by omega⟩
    have hcast : (((p % 12).toNat : Nat) : Int) = p % 12 := by omega
    rw [hcast] at hfix
    have hd : q / 12 = p / 12 + w / 12 := by omega
    have hm : q % 12 = w % 12 := by omega
    rw [hd, hm]
    have hshift1 : quantizeCore (SCALES s) (p / 12 + w / 12) (w % 12)
        = 12 * (p / 12 + w / 12) + quantizeCore (SCALES s) 0 (w % 12) :=
      quantizeCore_shift _ _ _
    have hshift2 : quantizeCore (SCALES s) (w / 12) (w % 12)
        = 12 * (w / 12) + quantizeCore (SCALES s) 0 (w % 12) :=
      quantizeCore_shift _ _ _
    rw [← hwdef] at hfix
    have : quantizeCore (SCALES s) (p / 12 + w / 12) (w % 12) = q := by omega
    exact_mod_cast congrArg (fun z : Int => (z : ℚ)) this

/-! ### Transformation lemmas (claims C2, C5, C10) -/

theorem mapIdxGo_length (f : Nat → α → β) (l : List α) :
    ∀ k, (mapIdxGo f k l).length = l.length := by
  induction l with
  | nil => intro k; rfl
  | cons a l ih => intro k; simp [mapIdxGo, ih]

theorem mapIdxGo_getElem? (f : Nat → α → β) (l : List α) :
    ∀ k i, (mapIdxGo f k l)[i]? = (l[i]?).map (f (k + i)) := by
  induction l with
  | nil => intro k i; simp [mapIdxGo]
  | cons a l ih =>
      intro k i
      cases i with
      | zero => simp [mapIdxGo]
      | succ j =>
          rw [show (mapIdxGo f k (a :: l)) = f k a :: mapIdxGo f (k + 1) l from rfl,
            List.getElem?_cons_succ, List.getElem?_cons_succ,
            show k + (j + 1) = (k + 1) + j from by omega]
          exact ih (k + 1) j

theorem mapWithIndex_length (f : Nat → α → β) (l : List α) :
    (mapWithIndex f l).length = l.length := mapIdxGo_length f l 0

theorem mapWithIndex_getElem? (f : Nat → α → β) (l : List α) (i : Nat) :
    (mapWithIndex f l)[i]? = (l[i]?).map (f i) := by
  simpa using mapIdxGo_getElem? f l 0 i

/-- The min/max scan with `some` accumulators is a pair of `foldl`s. -/
theorem minMaxPitch_some (l : List Step) : ∀ a b : ℚ,
    minMaxPitch l (some a, some b) =
      (some (l.foldl (fun m s => min m s.pitch) a),
       some (l.foldl (fun m s => max m s.pitch) b)) := by
  induction l with
  | nil => intro a b; rfl
  | cons s rest ih =>
      intro a b
      have hmin : (if s.pitch < a then some s.pitch else some a) = some (min a s.pitch) := by
        rcases lt_or_le s.pitch a with h | h
        · rw [if_pos h, min_eq_right h.le]
        · rw [if_neg (not_lt.mpr h), min_eq_left h]
      have hmax : (if b < s.pitch then some s.pitch else some b) = some (max b s.pitch) := by
        rcases lt_or_le b s.pitch with h | h
        · rw [if_pos h, max_eq_right h.le]
        · rw [if_neg (not_lt.mpr h), max_eq_left h]
      show minMaxPitch rest
        ((if s.pitch < a then some s.pitch else some a),
         (if b < s.pitch then some s.pitch else some b)) = _
      rw [hmin, hmax, ih]
      rfl

theorem minMaxPitch_cons (s : Step) (rest : List Step) :
    minMaxPitch (s :: rest) (none, none)
      = minMaxPitch rest (some s.pitch, some s.pitch) := rfl

/-- Reflecting every pitch around `mn + mx` turns the running-min fold into
`mx - (max - mn)`. -/
theorem foldl_min_reflect (mn mx : ℚ) (l : List Step) : ∀ a : ℚ,
    l.foldl (fun m s => min m (mx - (s.pitch - mn))) (mx - (a - mn))
      = mx - (l.foldl (fun m s => max m s.pitch) a - mn) := by
  induction l with
  | nil => intro a; rfl
  | cons s rest ih =>
      intro a
      have key : min (mx - (a - mn)) (mx - (s.pitch - mn))
          = mx - (max a s.pitch - mn) := by
        rw [show mx - (a - mn) = (mx + mn) - a by ring,
          show mx - (s.pitch - mn) = (mx + mn) - s.pitch by ring,
          min_sub_sub_left]
        ring
      simp only [List.foldl_cons, key, ih]

theorem foldl_max_reflect (mn mx : ℚ) (l : List Step) : ∀ a : ℚ,
    l.foldl (fun m s => max m (mx - (s.pitch - mn))) (mx - (a - mn))
      = mx - (l.foldl (fun m s => min m s.pitch) a - mn) := by
  induction l with
  | nil => intro a; rfl
  | cons s rest ih =>
      intro a
      have key : max (mx - (a - mn)) (mx - (s.pitch - mn))
          = mx - (min a s.pitch - mn) := by
        rw [show mx - (a - mn) = (mx + mn) - a by ring,
          show mx - (s.pitch - mn) = (mx + mn) - s.pitch by ring,
          max_sub_sub_left]
        ring
      simp only [List.foldl_cons, key, ih]

/-- Characterization of `invertSequence` on a nonempty step list. -/
theorem invertSequence_steps (seq : Sequence) (mn mx : ℚ)
    (hne : seq.steps.isEmpty = false)
    (hmm : minMaxPitch seq.steps (none, none) = (some mn, some mx)) :
    invertSequence seq = { seq with steps := seq.steps.map fun s =>
      { s with pitch := mx - (s.pitch - mn) } } := by
  rw [invertSequence, cloneSequence, hne]
  simp only [Bool.false_eq_true, if_false, hmm]

theorem invertSequence_of_nil (seq : Sequence) (h : seq.steps = []) :
    invertSequence seq = seq := by
  rw [invertSequence, cloneSequence, h]
  rfl

/-- Claim C5: double inversion restores every active-range pitch. -/
theorem invert_involution (seq : Sequence) (_h : 1 ≤ seq.length)
    (i : Nat) (_hi : i < seq.length) :
    ((invertSequence (invertSequence seq)).steps[i]?).map Step.pitch
      = (seq.steps[i]?).map Step.pitch := by
  cases hsteps : seq.steps with
  | nil =>
      rw [invertSequence_of_nil seq hsteps, invertSequence_of_nil seq hsteps, hsteps]
  | cons s rest =>
      have hne : seq.steps.isEmpty = false := by rw [hsteps]; rfl
      set mn := rest.foldl (fun m s => min m s.pitch) s.pitch with hmn
      set mx := rest.foldl (fun m s => max m s.pitch) s.pitch with hmx
      have hmm : minMaxPitch seq.steps (none, none) = (some mn, some mx) := by
        rw [hsteps, minMaxPitch_cons, minMaxPitch_some]
      have h1 := invertSequence_steps seq mn mx hne hmm
      set g : Step → Step := fun t => { t with pitch := mx - (t.pitch - mn) } with hg
      have hsteps1 : (invertSequence seq).steps = seq.steps.map g := by rw [h1]
      have hne1 : (invertSequence seq).steps.isEmpty = false := by
        rw [hsteps1, hsteps]; rfl
      have hmm1 : minMaxPitch (invertSequence seq).steps (none, none)
          = (some mn, some mx) := by
        rw [hsteps1, hsteps]
        show minMaxPitch (g s :: rest.map g) (none, none) = _
        rw [minMaxPitch_cons, minMaxPitch_some, List.foldl_map, List.foldl_map]
        have hpg : (g s).pitch = mx - (s.pitch - mn) := rfl
        have e1 : (rest.foldl (fun m t => min m (g t).pitch) (g s).pitch) = mn := by
          show (rest.foldl (fun m t => min m (mx - (t.pitch - mn)))
            (g s).pitch) = mn
          rw [hpg, foldl_min_reflect, ← hmx]
          ring
        have e2 : (rest.foldl (fun m t => max m (g t).pitch) (g s).pitch) = mx := by
          show (rest.foldl (fun m t => max m (mx - (t.pitch - mn)))
            (g s).pitch) = mx
          rw [hpg, foldl_max_reflect, ← hmn]
          ring
        rw [e1, e2]
      have h2 := invertSequence_steps (invertSequence seq) mn mx hne1 hmm1
      have hsteps2 : (invertSequence (invertSequence seq)).steps
          = (seq.steps.map g).map g := by rw [h2, hsteps1]
      rw [hsteps2, List.map_map, List.getElem?_map, hsteps]
      cases hv : (s :: rest)[i]? with
      | none => rfl
      | some t =>
          show some ((g ∘ g) t).pitch = some t.pitch
          have : ((g ∘ g) t).pitch = t.pitch := by
            show mx - ((mx - (t.pitch - mn)) - mn) = t.pitch
            ring
          rw [this]

/-- A small concrete sequence used by witnesses. -/
def wSeq : Sequence :=
  { steps := [{ defaultStep with pitch := 3 }, { defaultStep with pitch := 10, gateOn := true }],
    length := 2, scale := ScaleName.major, playbackOrder := PlaybackOrder.forward }

theorem invert_involution_witness :
    ((invertSequence (invertSequence wSeq)).steps[0]?).map Step.pitch
      = (wSeq.steps[0]?).map Step.pitch :=
  invert_involution wSeq (by decide) 0 (by decide)

/-- The shape of `invertSequence`: identity on an empty step list, otherwise
a pitch-only remap of every stored step. -/
theorem invertSequence_shape (seq : Sequence) :
    invertSequence seq = seq ∨ ∃ mn mx : ℚ, invertSequence seq
      = { seq with steps := seq.steps.map fun s =>
          { s with pitch := mx - (s.pitch - mn) } } := by
  by_cases hne : seq.steps.isEmpty
  · exact Or.inl (invertSequence_of_nil seq (by simpa using hne))
  · right
    have hne' : seq.steps.isEmpty = false := by simpa using hne
    obtain ⟨s, rest, hsr⟩ : ∃ s rest, seq.steps = s :: rest := by
      cases h : seq.steps with
      | nil => rw [h] at hne'; simp at hne'
      | cons a l => exact ⟨a, l, rfl⟩
    exact ⟨rest.foldl (fun m t => min m t.pitch) s.pitch,
      rest.foldl (fun m t => max m t.pitch) s.pitch,
      invertSequence_steps seq _ _ hne'
        (by rw [hsr, minMaxPitch_cons, minMaxPitch_some])⟩

/-- On a nonzero range, `mutateSequence` is a per-index pitch remap of the
stored steps. -/
theorem mutateSequence_steps_of_ne (rand : Nat → ℚ) (seq : Sequence) (range : ℚ)
    (hr : range ≠ 0) :
    mutateSequence rand seq range
      = { seq with steps := mapWithIndex (fun i step =>
          if step.gateOn then
            { step with pitch := step.pitch + ((⌊rand i * (range * 2 + 1)⌋ : ℚ) - range) }
          else step) seq.steps } := by
  unfold mutateSequence cloneSequence
  simp [hr]

/-- The shape of `mutateSequence`: identity on `range = 0`, otherwise a
pitch-only per-index remap of the stored steps. -/
theorem mutateSequence_shape (rand : Nat → ℚ) (seq : Sequence) (range : ℚ) :
    mutateSequence rand seq range = seq ∨ mutateSequence rand seq range
      = { seq with steps := mapWithIndex (fun i step =>
          if step.gateOn then
            { step with pitch := step.pitch + ((⌊rand i * (range * 2 + 1)⌋ : ℚ) - range) }
          else step) seq.steps } := by
  unfold mutateSequence cloneSequence
  by_cases h : range = 0 <;> simp [h]

/-- Everything a transformation must keep: the `length`, `scale` and
`playbackOrder` fields and the stored-step count. -/
def preservesFrame (s t : Sequence) : Prop :=
  t.length = s.length ∧ t.scale = s.scale ∧ t.playbackOrder = s.playbackOrder
    ∧ t.steps.length = s.steps.length

/-- All fields of a step other than `pitch`. -/
def nonPitch (st : Step) :
    Bool × Nat × ℚ × GateLengthKind × Option Nat × Option Nat :=
  (st.gateOn, st.ratchets, st.slew, st.gateLength, st.depth, st.originalIndex)

theorem reverseSequence_getElem_lt (seq : Sequence)
    (hls : seq.length ≤ seq.steps.length) (i : Nat) (hi : i < seq.length) :
    (reverseSequence seq).steps[i]? = seq.steps[seq.length - 1 - i]? := by
  show ((seq.steps.take seq.length).reverse ++ seq.steps.drop seq.length)[i]?
    = seq.steps[seq.length - 1 - i]?
  have htl : (seq.steps.take seq.length).length = seq.length := by
    simp [List.length_take]
    omega
  have hrl : ((seq.steps.take seq.length).reverse).length = seq.length := by
    simp [htl]
  rw [List.getElem?_append_left (by omega)]
  rw [List.getElem?_reverse (by omega)]
  rw [htl]
  have hlt : seq.length - 1 - i < seq.length := by omega
  rw [List.getElem?_take_of_lt hlt]

theorem reverseSequence_getElem_ge (seq : Sequence) (i : Nat)
    (hi : seq.length ≤ i) :
    (reverseSequence seq).steps[i]? = seq.steps[i]? := by
  show ((seq.steps.take seq.length).reverse ++ seq.steps.drop seq.length)[i]?
    = seq.steps[i]?
  have hrl : ((seq.steps.take seq.length).reverse).length
      = min seq.length seq.steps.length := by
    simp [List.length_take]
  rw [List.getElem?_append_right (by omega)]
  rcases le_or_lt seq.length seq.steps.length with h | h
  · rw [List.getElem?_drop]
    congr 1
    omega
  · have h1 : seq.steps.drop seq.length = [] := by
      apply List.drop_eq_nil_of_le
      omega
    rw [h1, List.getElem?_eq_none (by simp), List.getElem?_eq_none (by omega)]

/-- Claim C10: each transformation keeps `length`, `scale`, `playbackOrder`
and the stored-step count; transpose/invert/mutate change only `pitch`
per step; reverse permutes whole steps of the active slice (reversal) and
keeps the rest in place. -/
theorem transformations_invariants (seq : Sequence) (n range : ℚ)
    (rand : Nat → ℚ) :
    preservesFrame seq (transposeSequence seq n) ∧
    preservesFrame seq (invertSequence seq) ∧
    preservesFrame seq (reverseSequence seq) ∧
    preservesFrame seq (mutateSequence rand seq range) ∧
    (∀ i : Nat, ((transposeSequence seq n).steps[i]?).map nonPitch
      = (seq.steps[i]?).map nonPitch) ∧
    (∀ i : Nat, ((invertSequence seq).steps[i]?).map nonPitch
      = (seq.steps[i]?).map nonPitch) ∧
    (∀ i : Nat, ((mutateSequence rand seq range).steps[i]?).map nonPitch
      = (seq.steps[i]?).map nonPitch) ∧
    (seq.length ≤ seq.steps.length →
      (∀ i : Nat, i < seq.length →
        (reverseSequence seq).steps[i]? = seq.steps[seq.length - 1 - i]?) ∧
      (∀ i : Nat, seq.length ≤ i →
        (reverseSequence seq).steps[i]? = seq.steps[i]?)) := by
  have hrevlen : (reverseSequence seq).steps.length = seq.steps.length := by
    show ((seq.steps.take seq.length).reverse ++ seq.steps.drop seq.length).length
      = seq.steps.length
    simp [List.length_take]
    omega
  refine ⟨⟨rfl, rfl, rfl, by simp [transposeSequence, cloneSequence]⟩,
    ?_, ⟨rfl, rfl, rfl, hrevlen⟩, ?_, ?_, ?_, ?_,
    fun hls => ⟨fun i hi => reverseSequence_getElem_lt seq hls i hi,
      fun i hi => reverseSequence_getElem_ge seq i hi⟩⟩
  · rcases invertSequence_shape seq with h | ⟨mn, mx, h⟩ <;> rw [h] <;>
      exact ⟨rfl, rfl, rfl, by simp⟩
  · rcases mutateSequence_shape rand seq range with h | h <;> rw [h] <;>
      exact ⟨rfl, rfl, rfl, by simp [mapWithIndex_length]⟩
  · intro i
    rw [show (transposeSequence seq n).steps
      = seq.steps.map (fun step => { step with pitch := step.pitch + n }) from rfl]
    rw [List.getElem?_map]
    cases seq.steps[i]? <;> rfl
  · intro i
    rcases invertSequence_shape seq with h | ⟨mn, mx, h⟩
    · rw [h]
    · rw [h]
      show ((seq.steps.map fun s => { s with pitch := mx - (s.pitch - mn) })[i]?).map nonPitch
        = (seq.steps[i]?).map nonPitch
      rw [List.getElem?_map]
      cases seq.steps[i]? <;> rfl
  · intro i
    rcases mutateSequence_shape rand seq range with h | h
    · rw [h]
    · rw [h]
      show ((mapWithIndex (fun j step => if step.gateOn then
          { step with pitch := step.pitch + ((⌊rand j * (range * 2 + 1)⌋ : ℚ) - range) }
        else step) seq.steps)[i]?).map nonPitch = (seq.steps[i]?).map nonPitch
      rw [mapWithIndex_getElem?]
      cases hv : seq.steps[i]? with
      | none => rfl
      | some t => cases hgo : t.gateOn <;> simp [nonPitch, hgo]

theorem transformations_invariants_witness :
    (reverseSequence wSeq).steps[0]? = wSeq.steps[wSeq.length - 1 - 0]? :=
  ((transformations_invariants wSeq 1 2 (fun _ => 0)).2.2.2.2.2.2.2
    (by decide)).1 0 (by decide)

/-- Concrete sequence with one step beyond the active length. -/
def c2Seq : Sequence :=
  { steps := [{ defaultStep with pitch := 0, gateOn := true },
              { defaultStep with pitch := 10 }],
    length := 1, scale := ScaleName.chromatic, playbackOrder := PlaybackOrder.forward }

/-- Counterexample to claim C2: `transposeSequence` modifies the step at
index 1 even though `length = 1`, so steps beyond the active length are not
left byte-for-byte equal. -/
theorem transpose_modifies_inactive_step :
    (transposeSequence c2Seq 5).steps[1]? ≠ c2Seq.steps[1]? := by
  simp only [transposeSequence, cloneSequence, c2Seq, defaultStep]
  intro h
  simp only [List.map_cons, List.getElem?_cons_succ, List.getElem?_cons_zero,
    Option.some.injEq, Step.mk.injEq] at h
  have : (10 : ℚ) + 5 = 10 := h.1
  norm_num at this

/-- Claim C2 as amended: only `reverseSequence` leaves the steps at or
beyond `length` untouched; `transposeSequence` shifts the pitch of every
stored step (active or not), `invertSequence` remaps every stored step's
pitch around the min/max taken over all stored steps, and `mutateSequence`
jitters every stored step with `gateOn`, also beyond the active length. -/
theorem transformations_touch_stored_tail (seq : Sequence) (n range : ℚ)
    (rand : Nat → ℚ) (i : Nat) :
    (seq.length ≤ i → (reverseSequence seq).steps[i]? = seq.steps[i]?) ∧
    ((transposeSequence seq n).steps[i]?).map Step.pitch
      = (seq.steps[i]?).map (fun s => s.pitch + n) ∧
    (∀ mn mx : ℚ, seq.steps.isEmpty = false →
      minMaxPitch seq.steps (none, none) = (some mn, some mx) →
      ((invertSequence seq).steps[i]?).map Step.pitch
        = (seq.steps[i]?).map (fun s => mx - (s.pitch - mn))) ∧
    (range ≠ 0 →
      ((mutateSequence rand seq range).steps[i]?).map Step.pitch
        = (seq.steps[i]?).map (fun s =>
            if s.gateOn then s.pitch + ((⌊rand i * (range * 2 + 1)⌋ : ℚ) - range)
            else s.pitch)) := by
  refine ⟨fun hi => reverseSequence_getElem_ge seq i hi, ?_, ?_, ?_⟩
  · rw [show (transposeSequence seq n).steps
      = seq.steps.map (fun step => { step with pitch := step.pitch + n }) from rfl]
    rw [List.getElem?_map]
    cases seq.steps[i]? <;> rfl
  · intro mn mx hne hmm
    rw [invertSequence_steps seq mn mx hne hmm]
    show ((seq.steps.map fun s => { s with pitch := mx - (s.pitch - mn) })[i]?).map Step.pitch
      = _
    rw [List.getElem?_map]
    cases seq.steps[i]? <;> rfl
  · intro hr
    rw [mutateSequence_steps_of_ne rand seq range hr]
    show ((mapWithIndex (fun j step => if step.gateOn then
        { step with pitch := step.pitch + ((⌊rand j * (range * 2 + 1)⌋ : ℚ) - range) }
      else step) seq.steps)[i]?).map Step.pitch = _
    rw [mapWithIndex_getElem?]
    cases hv : seq.steps[i]? with
    | none => rfl
    | some t => cases hgo : t.gateOn <;> simp [hgo]

theorem transformations_touch_stored_tail_witness :
    (reverseSequence c2Seq).steps[1]? = c2Seq.steps[1]? :=
  (transformations_touch_stored_tail c2Seq 5 2 (fun _ => 0) 1).1 (by decide)

/-! ### Scheduler lemmas (claims C6, C8, C9) -/

/-- Claim C6: pendulum index resolution.  For `L > 1` the index is
`pos` if `pos < L` else `C - pos` with `C = 2L - 2` and `pos = n mod C`;
for `L ≤ 1` it is 0; for `L = 4` counters 0..7 give `[0,1,2,3,2,1,0,1]`. -/
theorem pendulum_index_resolution (seq : Sequence) (n : Nat) (rand : ℚ)
    (hord : seq.playbackOrder = PlaybackOrder.pendulum) :
    (1 < seq.length →
      getStepIndexAtTick seq n rand =
        (if n % (2 * seq.length - 2) < seq.length then n % (2 * seq.length - 2)
         else (2 * seq.length - 2) - n % (2 * seq.length - 2))) ∧
    (seq.length ≤ 1 → getStepIndexAtTick seq n rand = 0) ∧
    (seq.length = 4 →
      (List.range 8).map (fun m => getStepIndexAtTick seq m rand)
        = [0, 1, 2, 3, 2, 1, 0, 1]) := by
  refine ⟨?_, ?_, ?_⟩
  · intro h1
    have hne : ¬ seq.length = 0 := by omega
    simp only [getStepIndexAtTick, hord, if_neg hne]
    rw [if_neg (by omega : ¬ seq.length ≤ 1)]
  · intro h1
    rcases (show seq.length = 0 ∨ seq.length = 1 by omega) with h | h <;>
      simp [getStepIndexAtTick, hord, h]
  · intro h4
    simp only [getStepIndexAtTick, hord, h4]
    decide

/-- Concrete pendulum sequence for the C6 witness (step contents are
irrelevant to index resolution). -/
def pendSeq : Sequence :=
  { steps := [], length := 4, scale := ScaleName.chromatic,
    playbackOrder := PlaybackOrder.pendulum }

theorem pendulum_index_resolution_witness :
    (List.range 8).map (fun m => getStepIndexAtTick pendSeq m 0)
      = [0, 1, 2, 3, 2, 1, 0, 1] :=
  (pendulum_index_resolution pendSeq 0 0 rfl).2.2 rfl

/-- Claim C9: for every playback order the resolved index is in bounds when
the active length is at least 1, and it is 0 when the length is 0.  The
`random` draw satisfies the `Math.random` contract `0 ≤ rand < 1`. -/
theorem getStepIndexAtTick_in_bounds (seq : Sequence) (n : Nat) (rand : ℚ)
    (_h0 : 0 ≤ rand) (h1 : rand < 1) :
    (1 ≤ seq.length → getStepIndexAtTick seq n rand < seq.length) ∧
    (seq.length = 0 → getStepIndexAtTick seq n rand = 0) := by
  constructor
  · intro hL
    have hne : ¬ seq.length = 0 := by omega
    cases hord : seq.playbackOrder with
    | forward =>
        simp only [getStepIndexAtTick, hord, if_neg hne]
        exact Nat.mod_lt _ (by omega)
    | backward =>
        simp only [getStepIndexAtTick, hord, if_neg hne]
        have := Nat.mod_lt n (show 0 < seq.length by omega)
        omega
    | pendulum =>
        simp only [getStepIndexAtTick, hord, if_neg hne]
        by_cases h2 : seq.length ≤ 1
        · rw [if_pos h2]; omega
        · rw [if_neg h2]
          have hc : 0 < 2 * seq.length - 2 := by omega
          have hp := Nat.mod_lt n hc
          split_ifs with h3
          · exact h3
          · omega
    | random =>
        simp only [getStepIndexAtTick, hord, if_neg hne]
        have hlt : ⌊rand * (seq.length : ℚ)⌋ < ((seq.length : Nat) : Int) := by
          rw [Int.floor_lt]
          push_cast
          calc rand * (seq.length : ℚ) < 1 * (seq.length : ℚ) := by
                apply mul_lt_mul_of_pos_right h1
                exact_mod_cast (show 0 < seq.length by omega)
            _ = _ := one_mul _
        omega
  · intro h
    simp [getStepIndexAtTick, h]

theorem getStepIndexAtTick_in_bounds_witness :
    getStepIndexAtTick wSeq 3 (1/2) < wSeq.length :=
  (getStepIndexAtTick_in_bounds wSeq 3 (1/2) (by norm_num) (by norm_num)).1
    (by decide)

/-- Claim C8: a tick on a zero-length active sequence produces no trigger
event and leaves the persistent tick state untouched. -/
theorem processChannel_zero_length (channel : Channel) (time : ℚ)
    (ratchetsEnabled : Bool) (quarterTime : ℚ) (st : ChannelState) (rand : ℚ)
    (randB : Nat → ℚ) (randS : Nat → Nat → ℚ)
    (h : (channel.activeSequence.getD
      (buildPlaybackSequence randB randS channel)).length = 0) :
    processChannel channel time ratchetsEnabled quarterTime st rand randB randS
      = (st, none) := by
  simp only [processChannel]
  rw [if_pos h]

/-- A channel whose cached active sequence has length 0. -/
def c8Channel : Channel :=
  { id := 1, currentPatternIndex := 0, patterns := [], generatedTree := none,
    activeSequence := some
      { steps := [], length := 0,
        scale := ScaleName.chromatic, playbackOrder := PlaybackOrder.forward } }

/-- A nontrivial tick state, to exhibit that it is returned unchanged. -/
def c8State : ChannelState :=
  { currentBaseStep := 3, currentRatchetCount := 1, nextNoteTime := 7,
    lastTriggeredStepIndex := 2 }

theorem processChannel_zero_length_witness :
    processChannel c8Channel 5 true 2 c8State 0 (fun _ => 0) (fun _ _ => 0)
      = (c8State, none) :=
  processChannel_zero_length c8Channel 5 true 2 c8State 0 (fun _ => 0)
    (fun _ _ => 0) rfl

/-! ### Tree builder lemmas (claim C7) -/

mutual

def countNodes : TreeNode → Nat
  | .mk _ _ _ l r => 1 + countNodesOpt l + countNodesOpt r

def countNodesOpt : Option TreeNode → Nat
  | none => 0
  | some t => countNodes t

end

/-- Shape of a complete binary tree: with `d` levels below it, a node has
exactly two children (one depth deeper) that are complete with `d - 1`
levels; with 0 levels it has none. -/
def completeShape : Nat → TreeNode → Prop
  | 0, node => node.left = none ∧ node.right = none
  | d + 1, node => ∃ lc rc, node.left = some lc ∧ node.right = some rc ∧
      lc.depth = node.depth + 1 ∧ rc.depth = node.depth + 1 ∧
      completeShape d lc ∧ completeShape d rc

theorem count_of_completeShape : ∀ (d : Nat) (node : TreeNode),
    completeShape d node → countNodes node = 2 ^ (d + 1) - 1 := by
  intro d
  induction d with
  | zero =>
      intro node h
      cases node with
      | mk s dep m l r =>
          obtain ⟨hl, hr⟩ := h
          simp only [TreeNode.left] at hl
          simp only [TreeNode.right] at hr
          subst hl
          subst hr
          simp [countNodes, countNodesOpt]
  | succ d ih =>
      intro node h
      obtain ⟨lc, rc, hl, hr, _, _, hcl, hcr⟩ := h
      cases node with
      | mk s dep m l r =>
          simp only [TreeNode.left] at hl
          simp only [TreeNode.right] at hr
          subst hl
          subst hr
          have h1 := ih lc hcl
          have h2 := ih rc hcr
          have h3 : countNodes (TreeNode.mk s dep m (some lc) (some rc))
              = 1 + countNodes lc + countNodes rc := by
            simp [countNodes, countNodesOpt]
          have h4 : (2 : Nat) ^ (d + 1 + 1) = 2 * 2 ^ (d + 1) := by ring
          have h5 : 1 ≤ (2 : Nat) ^ (d + 1) := Nat.one_le_two_pow
          omega

/-- The recursive builder produces a complete subtree when the fuel equals
the remaining depth, and it keeps the node's own depth and sequence. -/
theorem buildChildren_complete (pattern : Pattern) (randT : List Bool → Nat → ℚ)
    (maxDepth : Nat) :
    ∀ (fuel : Nat) (path : List Bool) (node : TreeNode),
      node.left = none → node.right = none → node.depth + fuel = maxDepth →
      (buildChildren pattern randT maxDepth fuel path node).depth = node.depth ∧
      (buildChildren pattern randT maxDepth fuel path node).sequence = node.sequence ∧
      completeShape fuel (buildChildren pattern randT maxDepth fuel path node) := by
  intro fuel
  induction fuel with
  | zero =>
      intro path node hl hr hd
      exact ⟨rfl, rfl, hl, hr⟩
  | succ fuel ih =>
      intro path node hl hr hd
      have hguard : ¬ maxDepth ≤ node.depth := by omega
      simp only [buildChildren, if_neg hguard]
      refine ⟨rfl, rfl, ?_⟩
      have ihl := ih (path ++ [false])
        (.mk (applyMod (pattern.branchConfig.getD (node.depth + 1 - 1) defaultBranchConfig).left
          (pattern.branchConfig.getD (node.depth + 1 - 1) defaultBranchConfig).leftParam
          (randT (path ++ [false])) node.sequence)
          (node.depth + 1)
          (some (pattern.branchConfig.getD (node.depth + 1 - 1) defaultBranchConfig).left)
          none none)
        rfl rfl (by show node.depth + 1 + fuel = maxDepth; omega)
      have ihr := ih (path ++ [true])
        (.mk (applyMod (pattern.branchConfig.getD (node.depth + 1 - 1) defaultBranchConfig).right
          (pattern.branchConfig.getD (node.depth + 1 - 1) defaultBranchConfig).rightParam
          (randT (path ++ [true])) node.sequence)
          (node.depth + 1)
          (some (pattern.branchConfig.getD (node.depth + 1 - 1) defaultBranchConfig).right)
          none none)
        rfl rfl (by show node.depth + 1 + fuel = maxDepth; omega)
      exact ⟨_, _, rfl, rfl, ihl.1, ihr.1, ihl.2.2, ihr.2.2⟩

/-- Claim C7: the generated tree is a complete binary tree of depth
`branchesCount` with exactly `2 ^ (branchesCount + 1) - 1` nodes; the root
sits at depth 0. -/
theorem generateTree_complete (randT : List Bool → Nat → ℚ) (channel : Channel) :
    completeShape
      (channel.patterns.getD channel.currentPatternIndex defaultPattern).branchesCount
      (generateTreeForChannel randT channel).root ∧
    countNodes (generateTreeForChannel randT channel).root
      = 2 ^ ((channel.patterns.getD channel.currentPatternIndex
          defaultPattern).branchesCount + 1) - 1 ∧
    (generateTreeForChannel randT channel).root.depth = 0 := by
  set pattern := channel.patterns.getD channel.currentPatternIndex defaultPattern
    with hp
  by_cases h0 : pattern.branchesCount = 0
  · simp only [generateTreeForChannel, ← hp, if_pos h0, h0]
    exact ⟨⟨rfl, rfl⟩, by simp [countNodes, countNodesOpt], rfl⟩
  · simp only [generateTreeForChannel, ← hp, if_neg h0]
    have hb := buildChildren_complete pattern randT pattern.branchesCount
      pattern.branchesCount [] (.mk pattern.trunk 0 none none none) rfl rfl
      (by simp [TreeNode.depth])
    refine ⟨?_, ?_, ?_⟩
    · have : (TreeNode.mk pattern.trunk 0 none none none).depth = 0 := rfl
      exact hb.2.2
    · rw [count_of_completeShape pattern.branchesCount _ hb.2.2]
    · exact hb.1

/-! ### Flattening machinery (claim C1) -/

theorem transposeSequence_length (seq : Sequence) (n : ℚ) :
    (transposeSequence seq n).length = seq.length := rfl

theorem transposeSequence_steps_length (seq : Sequence) (n : ℚ) :
    (transposeSequence seq n).steps.length = seq.steps.length := by
  simp [transposeSequence, cloneSequence]

theorem invertSequence_length (seq : Sequence) :
    (invertSequence seq).length = seq.length := by
  rcases invertSequence_shape seq with h | ⟨mn, mx, h⟩ <;> rw [h]

theorem invertSequence_steps_length (seq : Sequence) :
    (invertSequence seq).steps.length = seq.steps.length := by
  rcases invertSequence_shape seq with h | ⟨mn, mx, h⟩ <;> rw [h] <;> simp

theorem reverseSequence_length (seq : Sequence) :
    (reverseSequence seq).length = seq.length := rfl

theorem reverseSequence_steps_length (seq : Sequence) :
    (reverseSequence seq).steps.length = seq.steps.length := by
  show ((seq.steps.take seq.length).reverse ++ seq.steps.drop seq.length).length
    = seq.steps.length
  simp [List.length_take]
  omega

theorem mutateSequence_length (rand : Nat → ℚ) (seq : Sequence) (range : ℚ) :
    (mutateSequence rand seq range).length = seq.length := by
  rcases mutateSequence_shape rand seq range with h | h <;> rw [h]

theorem mutateSequence_steps_length (rand : Nat → ℚ) (seq : Sequence) (range : ℚ) :
    (mutateSequence rand seq range).steps.length = seq.steps.length := by
  rcases mutateSequence_shape rand seq range with h | h <;> rw [h] <;>
    simp [mapWithIndex_length]

theorem applyMod_length (kind : ModificationKind) (param : ℚ) (rand : Nat → ℚ)
    (seq : Sequence) : (applyMod kind param rand seq).length = seq.length := by
  cases kind with
  | transpose => exact transposeSequence_length seq param
  | invert => exact invertSequence_length seq
  | reverse => exact reverseSequence_length seq
  | mutate => exact mutateSequence_length rand seq _

theorem applyMod_steps_length (kind : ModificationKind) (param : ℚ)
    (rand : Nat → ℚ) (seq : Sequence) :
    (applyMod kind param rand seq).steps.length = seq.steps.length := by
  cases kind with
  | transpose => exact transposeSequence_steps_length seq param
  | invert => exact invertSequence_steps_length seq
  | reverse => exact reverseSequence_steps_length seq
  | mutate => exact mutateSequence_steps_length rand seq _

/-- Every node of a subtree with `d` remaining levels carries a sequence with
active length `L` and `n` stored steps; below the leaf level there are no
children. -/
def goodTree (L n : Nat) : Nat → TreeNode → Prop
  | 0, node => node.sequence.length = L ∧ node.sequence.steps.length = n ∧
      node.left = none ∧ node.right = none
  | d + 1, node => node.sequence.length = L ∧ node.sequence.steps.length = n ∧
      ∃ lc rc, node.left = some lc ∧ node.right = some rc ∧
        goodTree L n d lc ∧ goodTree L n d rc

theorem goodTree_self (L n : Nat) (d : Nat) (node : TreeNode)
    (h : goodTree L n d node) :
    node.sequence.length = L ∧ node.sequence.steps.length = n := by
  cases d with
  | zero => exact ⟨h.1, h.2.1⟩
  | succ d => exact ⟨h.1, h.2.1⟩

theorem buildChildren_good (pattern : Pattern) (randT : List Bool → Nat → ℚ)
    (maxDepth L n : Nat) :
    ∀ (fuel : Nat) (path : List Bool) (node : TreeNode),
      node.left = none → node.right = none → node.depth + fuel = maxDepth →
      node.sequence.length = L → node.sequence.steps.length = n →
      goodTree L n fuel (buildChildren pattern randT maxDepth fuel path node) := by
  intro fuel
  induction fuel with
  | zero =>
      intro path node hl hr hd hL hn
      exact ⟨hL, hn, hl, hr⟩
  | succ fuel ih =>
      intro path node hl hr hd hL hn
      have hguard : ¬ maxDepth ≤ node.depth := by omega
      simp only [buildChildren, if_neg hguard]
      refine ⟨hL, hn, _, _, rfl, rfl, ?_, ?_⟩
      · exact ih (path ++ [false]) _ rfl rfl
          (by show node.depth + 1 + fuel = maxDepth; omega)
          (by show (applyMod _ _ _ node.sequence).length = L
              rw [applyMod_length]; exact hL)
          (by show (applyMod _ _ _ node.sequence).steps.length = n
              rw [applyMod_steps_length]; exact hn)
      · exact ih (path ++ [true]) _ rfl rfl
          (by show node.depth + 1 + fuel = maxDepth; omega)
          (by show (applyMod _ _ _ node.sequence).length = L
              rw [applyMod_length]; exact hL)
          (by show (applyMod _ _ _ node.sequence).steps.length = n
              rw [applyMod_steps_length]; exact hn)

/-- The generated tree is `goodTree` for the trunk's active length and
stored-step count, with `branchesCount` levels below the root. -/
theorem generateTree_good (randT : List Bool → Nat → ℚ) (channel : Channel) :
    goodTree
      (channel.patterns.getD channel.currentPatternIndex defaultPattern).trunk.length
      (channel.patterns.getD channel.currentPatternIndex defaultPattern).trunk.steps.length
      (channel.patterns.getD channel.currentPatternIndex defaultPattern).branchesCount
      (generateTreeForChannel randT channel).root := by
  set pattern := channel.patterns.getD channel.currentPatternIndex defaultPattern
    with hp
  by_cases h0 : pattern.branchesCount = 0
  · simp only [generateTreeForChannel, ← hp, if_pos h0, h0]
    exact ⟨rfl, rfl, rfl, rfl⟩
  · simp only [generateTreeForChannel, ← hp, if_neg h0]
    exact buildChildren_good pattern randT pattern.branchesCount
      pattern.trunk.length pattern.trunk.steps.length pattern.branchesCount []
      (.mk pattern.trunk 0 none none none) rfl rfl (by show 0 + _ = _; omega)
      rfl rfl

theorem walkPath_good (L n : Nat) : ∀ (bits : List Bool) (d : Nat) (node : TreeNode),
    goodTree L n d node → bits.length = d →
    (walkPath node bits).length = bits.length ∧
    ∀ x ∈ walkPath node bits,
      x.sequence.length = L ∧ x.sequence.steps.length = n := by
  intro bits
  induction bits with
  | nil =>
      intro d node hgood hlen
      exact ⟨rfl, by intro x hx; cases hx⟩
  | cons b rest ih =>
      intro d node hgood hlen
      cases d with
      | zero => cases hlen
      | succ d =>
          obtain ⟨hL, hn, lc, rc, hl, hr, hgl, hgr⟩ := hgood
          have hchild : (if b then node.right else node.left)
              = some (if b then rc else lc) := by
            cases b <;> simp [hl, hr]
          have hgc : goodTree L n d (if b then rc else lc) := by
            cases b <;> simpa using (by first | exact hgr | exact hgl)
          have hrec := ih d (if b then rc else lc) hgc (by simpa using hlen)
          simp only [walkPath, hchild]
          constructor
          · simp [hrec.1]
          · intro x hx
            rcases List.mem_cons.mp hx with h | h
            · subst h
              exact goodTree_self L n d _ hgc
            · exact hrec.2 x h

theorem listSwap_length (l : List α) (i j : Nat) :
    (listSwap l i j).length = l.length := by
  unfold listSwap
  cases h1 : l[i]? <;> cases h2 : l[j]? <;> simp

theorem listSwap_mem (l : List α) (i j : Nat) (x : α)
    (hx : x ∈ listSwap l i j) : x ∈ l := by
  unfold listSwap at hx
  cases h1 : l[i]? with
  | none => rw [h1] at hx; exact hx
  | some a =>
      cases h2 : l[j]? with
      | none => rw [h1, h2] at hx; exact hx
      | some b =>
          rw [h1, h2] at hx
          rcases List.mem_or_eq_of_mem_set hx with hx' | hx'
          · rcases List.mem_or_eq_of_mem_set hx' with hx'' | hx''
            · exact hx''
            · subst hx''; exact List.getElem?_mem h2
          · subst hx'; exact List.getElem?_mem h1

theorem shuffleGo_length (rand : Nat → ℚ) :
    ∀ (m : Nat) (l : List α), (shuffleGo rand m l).length = l.length := by
  intro m
  induction m with
  | zero => intro l; rfl
  | succ m ih =>
      intro l
      show (shuffleGo rand m _).length = l.length
      rw [ih, listSwap_length]

theorem shuffleGo_mem (rand : Nat → ℚ) :
    ∀ (m : Nat) (l : List α) (x : α), x ∈ shuffleGo rand m l → x ∈ l := by
  intro m
  induction m with
  | zero => intro l x hx; exact hx
  | succ m ih =>
      intro l x hx
      exact listSwap_mem _ _ _ x (ih _ x hx)

theorem shuffleList_length (rand : Nat → ℚ) (l : List α) :
    (shuffleList rand l).length = l.length := shuffleGo_length rand _ l

theorem shuffleList_mem (rand : Nat → ℚ) (l : List α) (x : α)
    (hx : x ∈ shuffleList rand l) : x ∈ l := shuffleGo_mem rand _ l x hx

/-- Steps contributed by one node under a given step order: `L` for
`forward`/`backward`/`random`, `L + (L - 2)` for `pendulum` (the interior is
replayed). -/
def orderedLen (ord : PlaybackOrder) (L : Nat) : Nat :=
  match ord with
  | .pendulum => L + (L - 2)
  | _ => L

/-- Visited nodes after branch reordering: `m` for `forward`/`reverse`/
`random`, `m + (m - 2)` for `pendulum`. -/
def branchLen (ord : BranchPlaybackOrder) (m : Nat) : Nat :=
  match ord with
  | .pendulum => m + (m - 2)
  | _ => m

theorem nodeSteps_length (randS : Nat → ℚ) (seqOrder : PlaybackOrder)
    (node : TreeNode) (L n : Nat) (hL : node.sequence.length = L)
    (hn : node.sequence.steps.length = n) (hLn : L ≤ n) :
    (nodeSteps randS seqOrder node).length = orderedLen seqOrder L := by
  have hbase : (mapWithIndex (fun idx s => { s with originalIndex := some idx })
      (node.sequence.steps.take node.sequence.length)).length = L := by
    rw [mapWithIndex_length]
    simp [List.length_take, hL, hn]
    omega
  unfold nodeSteps
  cases seqOrder with
  | forward => simp only [orderedLen]; simp [hbase]
  | backward => simp only [orderedLen]; simp [hbase]
  | pendulum =>
      simp only [orderedLen]
      simp [hbase]
      omega
  | random =>
      simp only [orderedLen]
      simp [shuffleList_length, hbase]

theorem collectSteps_length (randS : Nat → Nat → ℚ) (seqOrder : PlaybackOrder)
    (L n : Nat) (hLn : L ≤ n) :
    ∀ (l : List TreeNode) (k : Nat),
      (∀ x ∈ l, x.sequence.length = L ∧ x.sequence.steps.length = n) →
      (collectSteps randS seqOrder k l).length = l.length * orderedLen seqOrder L := by
  intro l
  induction l with
  | nil => intro k hall; simp [collectSteps]
  | cons node rest ih =>
      intro k hall
      have hnode := hall node (List.mem_cons_self node rest)
      show (nodeSteps (randS k) seqOrder node ++
        collectSteps randS seqOrder (k + 1) rest).length = _
      rw [List.length_append,
        nodeSteps_length (randS k) seqOrder node L n hnode.1 hnode.2 hLn,
        ih (k + 1) (fun x hx => hall x (List.mem_cons_of_mem node hx))]
      simp [List.length_cons]
      ring

theorem pathBitsList_length (pathIndex branchesCount : Nat) :
    (pathBitsList pathIndex branchesCount).length = branchesCount := by
  unfold pathBitsList
  simp [List.length_take, List.length_replicate, List.length_append]
  omega

theorem reorderNodes_length (randB : Nat → ℚ) (bord : BranchPlaybackOrder)
    (l : List TreeNode) :
    (reorderNodes randB bord l).length = branchLen bord l.length := by
  cases bord with
  | forward => rfl
  | reverse => simp [reorderNodes, branchLen]
  | pendulum =>
      simp [reorderNodes, branchLen, List.length_dropLast]
      omega
  | random => simp [reorderNodes, branchLen, shuffleList_length]

theorem reorderNodes_mem (randB : Nat → ℚ) (bord : BranchPlaybackOrder)
    (l : List TreeNode) (x : TreeNode) (hx : x ∈ reorderNodes randB bord l) :
    x ∈ l := by
  cases bord with
  | forward => exact hx
  | reverse => exact List.mem_reverse.mp hx
  | pendulum =>
      rcases List.mem_append.mp hx with h | h
      · exact h
      · exact List.dropLast_subset _ (List.drop_subset _ _ (List.mem_reverse.mp h))
  | random => exact shuffleList_mem randB l x hx

/-- The flatten-length formula: with a tree generated from the current
pattern and the `length ≤ capacity` invariant on the trunk, the active
sequence's length is (number of reordered path nodes) × (steps contributed
per node). -/
theorem buildPlaybackSequence_length_formula (randT : List Bool → Nat → ℚ)
    (randB : Nat → ℚ) (randS : Nat → Nat → ℚ) (channel : Channel)
    (htree : channel.generatedTree = some (generateTreeForChannel randT channel))
    (hLn : (channel.patterns.getD channel.currentPatternIndex
        defaultPattern).trunk.length
      ≤ (channel.patterns.getD channel.currentPatternIndex
        defaultPattern).trunk.steps.length) :
    (buildPlaybackSequence randB randS channel).length
      = branchLen (channel.patterns.getD channel.currentPatternIndex
            defaultPattern).branchPlaybackOrder
          ((channel.patterns.getD channel.currentPatternIndex
            defaultPattern).branchesCount + 1)
        * orderedLen (channel.patterns.getD channel.currentPatternIndex
            defaultPattern).trunk.playbackOrder
          (channel.patterns.getD channel.currentPatternIndex
            defaultPattern).trunk.length := by
  set pattern := channel.patterns.getD channel.currentPatternIndex defaultPattern
    with hp
  set L := pattern.trunk.length with hLdef
  set n := pattern.trunk.steps.length with hndef
  set k := pattern.branchesCount with hkdef
  set root := (generateTreeForChannel randT channel).root with hroot
  have hgood : goodTree L n k root := generateTree_good randT channel
  set pathIndex : Int :=
    ⌊getEffectivePathValue pattern * ((2 ^ k : ℚ) - 1/10000)⌋ with hpi
  set bits := pathBitsList pathIndex.toNat k with hbits
  have hbl : bits.length = k := pathBitsList_length _ k
  have hwalk := walkPath_good L n bits k root hgood hbl
  set pathNodes := root :: walkPath root bits with hpn
  have hpnlen : pathNodes.length = k + 1 := by
    rw [hpn, List.length_cons, hwalk.1, hbl]
  have hmem : ∀ x ∈ pathNodes,
      x.sequence.length = L ∧ x.sequence.steps.length = n := by
    intro x hx
    rcases List.mem_cons.mp hx with h | h
    · subst h; exact goodTree_self L n k root hgood
    · exact hwalk.2 x h
  have hcollect := collectSteps_length randS pattern.trunk.playbackOrder L n hLn
    (reorderNodes randB pattern.branchPlaybackOrder pathNodes) 0
    (fun x hx => hmem x (reorderNodes_mem randB _ pathNodes x hx))
  show (buildPlaybackSequence randB randS channel).length = _
  rw [buildPlaybackSequence]
  simp only [← hp, htree]
  show (collectSteps randS pattern.trunk.playbackOrder 0
    (reorderNodes randB pattern.branchPlaybackOrder
      (root :: walkPath root (pathBitsList pathIndex.toNat k)))).length = _
  rw [← hbits, ← hpn, hcollect, reorderNodes_length, hpnlen]

/-- Claim C1 as amended: the flattened length is `B * S`, where `B` is the
reordered node count (`branchesCount + 1`, or with the interior replayed
once more under a `pendulum` branch order) and `S` is the per-node step
count (`trunk.length`, or with the interior replayed under a `pendulum`
step order).  The claim's `(branchesCount + 1) * trunk.length` is recovered
exactly when neither order is `pendulum`. -/
theorem flatten_length_amended (randT : List Bool → Nat → ℚ)
    (randB : Nat → ℚ) (randS : Nat → Nat → ℚ) (channel : Channel)
    (htree : channel.generatedTree = some (generateTreeForChannel randT channel))
    (hLn : (channel.patterns.getD channel.currentPatternIndex
        defaultPattern).trunk.length
      ≤ (channel.patterns.getD channel.currentPatternIndex
        defaultPattern).trunk.steps.length) :
    (buildPlaybackSequence randB randS channel).length
      = branchLen (channel.patterns.getD channel.currentPatternIndex
            defaultPattern).branchPlaybackOrder
          ((channel.patterns.getD channel.currentPatternIndex
            defaultPattern).branchesCount + 1)
        * orderedLen (channel.patterns.getD channel.currentPatternIndex
            defaultPattern).trunk.playbackOrder
          (channel.patterns.getD channel.currentPatternIndex
            defaultPattern).trunk.length ∧
    ((channel.patterns.getD channel.currentPatternIndex
        defaultPattern).branchPlaybackOrder ≠ BranchPlaybackOrder.pendulum →
      (channel.patterns.getD channel.currentPatternIndex
        defaultPattern).trunk.playbackOrder ≠ PlaybackOrder.pendulum →
      (buildPlaybackSequence randB randS channel).length
        = ((channel.patterns.getD channel.currentPatternIndex
            defaultPattern).branchesCount + 1)
          * (channel.patterns.getD channel.currentPatternIndex
            defaultPattern).trunk.length) := by
  have h := buildPlaybackSequence_length_formula randT randB randS channel htree hLn
  refine ⟨h, fun hbo hso => ?_⟩
  rw [h]
  congr 1
  · cases hb : (channel.patterns.getD channel.currentPatternIndex
        defaultPattern).branchPlaybackOrder <;> first
      | rfl
      | exact absurd hb hbo
  · cases hs : (channel.patterns.getD channel.currentPatternIndex
        defaultPattern).trunk.playbackOrder <;> first
      | rfl
      | exact absurd hs hso

/-- A trunk with one active step. -/
def exTrunk : Sequence :=
  { steps := [{ defaultStep with gateOn := true }], length := 1,
    scale := ScaleName.chromatic, playbackOrder := PlaybackOrder.forward }

/-- Two branch levels, pendulum branch order, default transpose recipes. -/
def exPattern : Pattern :=
  { trunk := exTrunk, branchesCount := 2, pathValue := 0, mutationAmount := 0,
    rootOffsetSemitones := 0, divMult := 1, branchConfig := [],
    branchPlaybackOrder := BranchPlaybackOrder.pendulum }

def exChannel0 : Channel :=
  { id := 1, currentPatternIndex := 0, patterns := [exPattern],
    generatedTree := none }

def exChannel : Channel :=
  { exChannel0 with
    generatedTree := some (generateTreeForChannel (fun _ _ => 0) exChannel0) }

/-- Counterexample to claim C1: with `branchesCount = 2`, trunk length 1 and
`pendulum` branch order the flattened sequence has 4 steps, not
`(2 + 1) * 1 = 3`: the pendulum replays the interior node. -/
theorem flatten_length_counterexample :
    (buildPlaybackSequence (fun _ => 0) (fun _ _ => 0) exChannel).length
      ≠ ((exChannel.patterns.getD exChannel.currentPatternIndex
          defaultPattern).branchesCount + 1)
        * (exChannel.patterns.getD exChannel.currentPatternIndex
          defaultPattern).trunk.length := by
  have h := buildPlaybackSequence_length_formula (fun _ _ => 0) (fun _ => 0)
    (fun _ _ => 0) exChannel rfl (by decide)
  rw [h]
  decide

/-- The same channel with a `forward` branch order, for the witness. -/
def exChannelF0 : Channel :=
  { id := 1, currentPatternIndex := 0,
    patterns := [{ exPattern with branchPlaybackOrder := BranchPlaybackOrder.forward }],
    generatedTree := none }

def exChannelF : Channel :=
  { exChannelF0 with
    generatedTree := some (generateTreeForChannel (fun _ _ => 0) exChannelF0) }

theorem flatten_length_amended_witness :
    (buildPlaybackSequence (fun _ => 0) (fun _ _ => 0) exChannelF).length
      = ((exChannelF.patterns.getD exChannelF.currentPatternIndex
          defaultPattern).branchesCount + 1)
        * (exChannelF.patterns.getD exChannelF.currentPatternIndex
          defaultPattern).trunk.length :=
  (flatten_length_amended (fun _ _ => 0) (fun _ => 0) (fun _ _ => 0) exChannelF
    rfl (by decide)).2 (by decide) (by decide)

end FractalSeq
